import Mathlib

/-!
Verification of the `tetris_pack` greedy packing algorithm of `Penrose/spacers.py`.

The Python code works on shapely geometries (finite unions of polygons) with
float coordinates.  The shallow embedding below works on finite unions of
closed axis-aligned rectangles with exact rational coordinates: every geometry
operation used by `tetris_pack` (union, translation, bounding box,
`intersects`, rotation by right-angle multiples) is exact on this universe,
and all concrete scenarios in the specification are rectilinear.

Rationals are represented by the executable type `Frac` (an integer numerator
with a positive integer denominator, not normalised), because arithmetic on
`Frac` reduces inside the kernel.  The function `Frac.toQ` interprets a `Frac`
in `ℚ`; all order/field reasoning is transported through it.
-/

/-- An exact rational: numerator `n`, positive denominator `d`.
Not normalised, so kernel computation never needs a gcd. -/
structure Frac where
  n : ℤ
  d : ℤ
  dpos : 0 < d

instance : DecidableEq Frac := fun a b =>
  if h : a.n = b.n ∧ a.d = b.d then
    .isTrue (by cases a; cases b; simp only at h; cases h.1; cases h.2; rfl)
  else
    .isFalse (by intro he; cases he; exact h ⟨rfl, rfl⟩)

namespace Frac

/-- Embed an integer. -/
def ofInt (k : ℤ) : Frac := ⟨k, 1, one_pos⟩

instance (k : ℕ) : OfNat Frac k := ⟨ofInt k⟩

/-- Interpretation in `ℚ` (used only in proofs). -/
def toQ (a : Frac) : ℚ := (a.n : ℚ) / (a.d : ℚ)

protected def add (a b : Frac) : Frac :=
  ⟨a.n * b.d + b.n * a.d, a.d * b.d, mul_pos a.dpos b.dpos⟩

protected def mul (a b : Frac) : Frac :=
  ⟨a.n * b.n, a.d * b.d, mul_pos a.dpos b.dpos⟩

protected def neg (a : Frac) : Frac := ⟨-a.n, a.d, a.dpos⟩

protected def sub (a b : Frac) : Frac := Frac.add a (Frac.neg b)

/-- Division; division by a zero-valued `Frac` yields `0`, matching the `ℚ`
convention (the Python code never divides by zero on the claim inputs). -/
protected def div (a b : Frac) : Frac :=
  if hb : b.n = 0 then ⟨0, 1, one_pos⟩
  else ⟨a.n * b.d * b.n.sign, a.d * b.n.natAbs,
    mul_pos a.dpos (by exact_mod_cast Int.natAbs_pos.mpr hb)⟩

instance : Add Frac := ⟨Frac.add⟩
instance : Mul Frac := ⟨Frac.mul⟩
instance : Neg Frac := ⟨Frac.neg⟩
instance : Sub Frac := ⟨Frac.sub⟩
instance : Div Frac := ⟨Frac.div⟩
instance : LE Frac := ⟨fun a b => a.n * b.d ≤ b.n * a.d⟩
instance : LT Frac := ⟨fun a b => a.n * b.d < b.n * a.d⟩

instance : DecidableRel ((· ≤ ·) : Frac → Frac → Prop) := fun a b => Int.decLe _ _

instance : DecidableRel ((· < ·) : Frac → Frac → Prop) := fun a b => Int.decLt _ _

/-- Value equality (Python float `==`); distinct representations can be
equivalent. -/
def eqv (a b : Frac) : Prop := a.n * b.d = b.n * a.d

instance : DecidableRel Frac.eqv := fun a b => Int.decEq _ _

/-- Python `max(x, y)`: returns `x` when the two are equal. -/
def pymax (a b : Frac) : Frac := if b ≤ a then a else b

/-- Geometric minimum (used to normalise rectangle corners). -/
def fmin (a b : Frac) : Frac := if a ≤ b then a else b

/-- Geometric maximum (used to normalise rectangle corners). -/
def fmax (a b : Frac) : Frac := if b ≤ a then a else b

/-- `math.floor`, exact. -/
def floor (a : Frac) : ℤ := a.n / a.d

/-- `math.ceil`, exact. -/
def ceil (a : Frac) : ℤ := -((-a.n) / a.d)

/-- Python `int()` (truncation towards zero). -/
def pyInt (a : Frac) : ℤ := if (0 : Frac) ≤ a then a.n / a.d else -((-a.n) / a.d)

end Frac

/-- A nonempty closed axis-aligned rectangle, in shapely bounds order. -/
structure Rect where
  minx : Frac
  miny : Frac
  maxx : Frac
  maxy : Frac
deriving DecidableEq

/-- A geometry: a finite union of closed rectangles (the rectilinear fragment
of shapely (Multi)Polygons; `[]` is the empty `MultiPolygon()`). -/
abbrev Geom := List Rect

/-- shapely `a.intersects(b)` for closed rectangles: true also when the two
merely touch at an edge or vertex. -/
def Rect.inters (a b : Rect) : Bool :=
  decide (a.minx ≤ b.maxx) && decide (b.minx ≤ a.maxx) &&
  decide (a.miny ≤ b.maxy) && decide (b.miny ≤ a.maxy)

/-- Area of the intersection of two rectangles (shapely
`a.intersection(b).area`); zero when they only touch. -/
def Rect.interArea (a b : Rect) : Frac :=
  Frac.fmax 0 (Frac.fmin a.maxx b.maxx - Frac.fmax a.minx b.minx) *
  Frac.fmax 0 (Frac.fmin a.maxy b.maxy - Frac.fmax a.miny b.miny)

/-- `shapely.affinity.translate` on a rectangle. -/
def Rect.translate (dx dy : Frac) (r : Rect) : Rect :=
  ⟨r.minx + dx, r.miny + dy, r.maxx + dx, r.maxy + dy⟩

/-- Rotation by +90 degrees about the origin: `(x, y) ↦ (-y, x)`. -/
def Rect.rot90 (r : Rect) : Rect := ⟨-r.maxy, r.minx, -r.miny, r.maxx⟩

/-- shapely `g.intersects(h)` (also what `prepared.intersects` computes)
on unions of rectangles. -/
def gInters (g h : Geom) : Bool := g.any fun a => h.any fun b => a.inters b

/-- shapely `union` as a point set: on disjoint-or-not rectangle unions the
union is just the concatenation of the parts. -/
def gUnion (g h : Geom) : Geom := g ++ h

/-- `shapely.affinity.translate` on a geometry. -/
def gTranslate (dx dy : Frac) (g : Geom) : Geom := g.map (Rect.translate dx dy)

def gRot90 (g : Geom) : Geom := g.map Rect.rot90

/-- `shapely.affinity.rotate(g, theta, origin=(0,0))`, in degrees.  Exact on
the rectilinear universe for right-angle multiples; other angles (never used
by the claims, whose scenarios all have `nb_orientations = 1`) are modelled
as the identity. -/
def gRotate (theta : Frac) (g : Geom) : Geom :=
  let q := theta / (90 : Frac)
  if q.n % q.d = 0 then gRot90^[((q.n / q.d) % 4).toNat] g else g

/-- shapely `g.bounds = (minx, miny, maxx, maxy)`; `(0,0,0,0)` for the empty
geometry (never taken by the code on the claim inputs). -/
def gBounds : Geom → Rect
  | [] => ⟨0, 0, 0, 0⟩
  | r :: rs => rs.foldl (fun b s =>
      ⟨Frac.fmin b.minx s.minx, Frac.fmin b.miny s.miny,
       Frac.fmax b.maxx s.maxx, Frac.fmax b.maxy s.maxy⟩) r

/-- Largest `maxy` over a geometry, at least `0` (used only to size the probe
fuel). -/
def gMaxY (g : Geom) : Frac := g.foldl (fun m r => Frac.fmax m r.maxy) 0

/-- Smallest `miny` over a geometry, at most `0` (used only to size the probe
fuel). -/
def gMinY (g : Geom) : Frac := g.foldl (fun m r => Frac.fmin m r.miny) 0

/-- Python `range(a, b)` as a list of integers. -/
def intRange (a b : ℤ) : List ℤ := (List.range (b - a).toNat).map fun k => a + (k : ℤ)

/-- Total list read with default `0` (Python list indexing is always in range
on the inputs the claims exercise). -/
def lget : List Frac → ℕ → Frac
  | [], _ => 0
  | a :: _, 0 => a
  | _ :: l, k + 1 => lget l k

/-- Total list write; out of range writes are dropped. -/
def lput : List Frac → ℕ → Frac → List Frac
  | [], _, _ => []
  | _ :: l, 0, v => v :: l
  | a :: l, k + 1, v => a :: lput l k v

/-- Python list index semantics: a negative index counts from the end. -/
def pySlot (len : ℕ) (i : ℤ) : ℤ := if i < 0 then i + len else i

/-- `l[i]` with Python index semantics. -/
def pyGet (l : List Frac) (i : ℤ) : Frac :=
  let j := pySlot l.length i
  if j < 0 then 0 else lget l j.toNat

/-- `l[i] = v` with Python index semantics. -/
def pySet (l : List Frac) (i : ℤ) (v : Frac) : List Frac :=
  let j := pySlot l.length i
  if j < 0 then l else lput l j.toNat v

/-- One recorded entry of `possible_positions`
(the dict `{'x':…, 'yoff':…, 'maxy':…, 'geom':…}` of spacers.py line 123). -/
structure Candidate where
  x : ℤ
  yoff : Frac
  maxy : Frac
  geom : Geom
deriving DecidableEq

/-- The mutable state of `tetris_pack`: the exact union `result`, the
coarsened occupancy `simplified_result`, the per-column water levels
`starting_yoffs`, and the progress counters. -/
structure PackState where
  result : Geom
  simplified : Geom
  starting_yoffs : List Frac
  nb_placed : ℕ
  global_maxy : Frac
deriving DecidableEq

/-- The geometry tested at stage `n` of the while-loop of lines 119-122:
stage `0` tests `geom_xshifted` itself (bottom edge at `y = 0`), stage
`n ≥ 1` tests `translate(geom_xshifted, 0, starting_yoffs[x] + n*stepy)`. -/
def probeGeom (gx : Geom) (y0 stepy : Frac) (n : ℕ) : Geom :=
  if n = 0 then gx else gTranslate 0 (y0 + Frac.ofInt n * stepy) gx

/-- The intersection test performed at stage `n` of the vertical search. -/
def probeHit (simplified gx : Geom) (y0 stepy : Frac) (n : ℕ) : Bool :=
  gInters simplified (probeGeom gx y0 stepy n)

/-- The while-loop of lines 119-122, written with structural fuel.  The fuel
is not a semantic cap: `probeFuel` below is proved sufficient, so the result
is the least non-intersecting stage, exactly as in the source. -/
def probeLoop (simplified gx : Geom) (y0 stepy : Frac) : ℕ → ℕ → ℕ
  | 0, k => k
  | fuel + 1, k =>
    if probeHit simplified gx y0 stepy k then probeLoop simplified gx y0 stepy fuel (k + 1)
    else k

/-- Enough fuel for the vertical search: beyond this many raises the piece is
entirely above everything placed (proved in `probeHit_fuel`). -/
def probeFuel (simplified gx : Geom) (y0 stepy : Frac) : ℕ :=
  (((gMaxY simplified - gMinY gx) - y0) / stepy).ceil.toNat + 2

/-- Number of `yoff += stepy` iterations performed by the while-loop. -/
def probe (simplified gx : Geom) (y0 stepy : Frac) : ℕ :=
  probeLoop simplified gx y0 stepy (probeFuel simplified gx y0 stepy) 0

/-- Lines 116-123 for one `(orientation, column)` pair: build the
`possible_positions` entry for column `x` of the rotated geometry with
bounds `b` and x-shifted copy `gx`. -/
def mkCandidate (simplified : Geom) (yoffs : List Frac) (stepy : Frac)
    (b : Rect) (gx : Geom) (x : ℤ) : Candidate :=
  let y0 := pyGet yoffs x
  let k := probe simplified gx y0 stepy
  { x := x
    yoff := y0 + Frac.ofInt k * stepy
    maxy := y0 + Frac.ofInt k * stepy + b.maxy - b.miny
    geom := probeGeom gx y0 stepy k }

/-- The rotation angle `360/nb_orientations*i` of line 113. -/
def rotAngle (nbo i : ℕ) : Frac := Frac.ofInt 360 / Frac.ofInt nbo * Frac.ofInt i

/-- The rotated copy of the piece for orientation `i`. -/
def rotated (nbo i : ℕ) (geom : Geom) : Geom := gRotate (rotAngle nbo i) geom

/-- The column list of line 115:
`range(ceil(-minx/stepx), floor((width-maxx)/stepx))`. -/
def colRange (width stepx : Frac) (b : Rect) : List ℤ :=
  intRange ((-b.minx) / stepx).ceil ((width - b.maxx) / stepx).floor

/-- `translate(geom_rotated, x*stepx, yoff=-miny)` of line 116. -/
def xshift (stepx : Frac) (b : Rect) (x : ℤ) (g : Geom) : Geom :=
  gTranslate (Frac.ofInt x * stepx) (-b.miny) g

/-- `possible_positions` for one piece: lines 111-123. -/
def candidatesFor (st : PackState) (width stepx stepy : Frac) (nbo : ℕ)
    (geom : Geom) : List Candidate :=
  (List.range nbo).flatMap fun i =>
    (colRange width stepx (gBounds (rotated nbo i geom))).map fun x =>
      mkCandidate st.simplified st.starting_yoffs stepy (gBounds (rotated nbo i geom))
        (xshift stepx (gBounds (rotated nbo i geom)) x (rotated nbo i geom)) x

/-- The sort key of line 124: `lambda d: (d['maxy'], d['x'])`. -/
def candKey (c : Candidate) : Frac × ℤ := (c.maxy, c.x)

/-- Python tuple `<` on such keys (float comparison is value comparison). -/
def keyLt (p q : Frac × ℤ) : Prop := p.1 < q.1 ∨ (Frac.eqv p.1 q.1 ∧ p.2 < q.2)

instance : DecidableRel keyLt := fun p q => by
  unfold keyLt; infer_instance

/-- Non-strict version of `keyLt` (`p` is at least as good as `q`). -/
def keyLe (p q : Frac × ℤ) : Prop := ¬ keyLt q p

/-- Python `min(_, key=…)` over a nonempty list: the first element attaining
the minimal key. -/
def minFold (c : Candidate) (cs : List Candidate) : Candidate :=
  cs.foldl (fun best d => if keyLt (candKey d) (candKey best) then d else best) c

/-- Line 124, `min(possible_positions, key=…)`: `none` models the
`ValueError` Python raises on an empty sequence. -/
def pyMin : List Candidate → Option Candidate
  | [] => none
  | c :: cs => some (minFold c cs)

/-- The shadow rectangle of lines 131-132: all points between `y = -1e-6`
and `y = miny - 1e-6` across the piece's horizontal span. -/
def shadowRect (b : Rect) : Rect :=
  let e : Frac := ⟨1, 1000000, by norm_num⟩
  ⟨b.minx, Frac.fmin (-e) (b.miny - e), b.maxx, Frac.fmax (-e) (b.miny - e)⟩

/-- Lines 125 and 133-134: the water-level updates of a commit.  Line 125
writes the resting `yoff` at the pivot column; lines 133-134 raise every
column of `range(ceil(minx/stepx), floor(maxx/stepx))` to at least the
committed geometry's bottom edge `miny`. -/
def commitYoffs (yoffs : List Frac) (stepx : Frac) (best : Candidate) : List Frac :=
  (intRange ((gBounds best.geom).minx / stepx).ceil
      ((gBounds best.geom).maxx / stepx).floor).foldl
    (fun l x => pySet l x (Frac.pymax (pyGet l x) (gBounds best.geom).miny))
    (pySet yoffs best.x best.yoff)

/-- Lines 125-138: commit the selected candidate. -/
def commitPiece (st : PackState) (stepx : Frac) (best : Candidate) : PackState :=
  { result := gUnion st.result best.geom
    simplified := gUnion (gUnion st.simplified best.geom)
      [shadowRect (gBounds best.geom)]
    starting_yoffs := commitYoffs st.starting_yoffs stepx best
    nb_placed := st.nb_placed + 1
    global_maxy := Frac.pymax (gBounds best.geom).maxy st.global_maxy }

/-- One iteration of the outer loop (lines 110-139) for one piece; `none`
models the uncaught `ValueError` of `min([])`, which aborts the whole run. -/
def placePiece (st : PackState) (width stepx stepy : Frac) (nbo : ℕ)
    (geom : Geom) : Option (Candidate × PackState) :=
  match pyMin (candidatesFor st width stepx stepy nbo geom) with
  | none => none
  | some best => some (best, commitPiece st stepx best)

/-- Lines 103-109: the initial state, with `int(width/stepx)` columns of
water level `0`. -/
def initState (width stepx : Frac) : PackState :=
  { result := []
    simplified := []
    starting_yoffs := List.replicate ((width / stepx).pyInt).toNat 0
    nb_placed := 0
    global_maxy := 0 }

/-- The outer loop over all pieces, also returning the list of committed
candidates (the data the code commits per piece). -/
def packGo (width stepx stepy : Frac) (nbo : ℕ) :
    PackState → List Geom → Option (List Candidate × PackState)
  | st, [] => some ([], st)
  | st, g :: gs =>
    (placePiece st width stepx stepy nbo g).bind fun p =>
      (packGo width stepx stepy nbo p.2 gs).map fun q => (p.1 :: q.1, q.2)

/-- `tetris_pack` of spacers.py, with the full final state and the per-piece
commit trace exposed.  `none` models an uncaught Python exception. -/
def tetris_packFull (geoms : List Geom) (width stepx stepy : Frac) (nbo : ℕ) :
    Option (List Candidate × PackState) :=
  packGo width stepx stepy nbo (initState width stepx) geoms

/-- `tetris_pack`'s return value, the exact union `result` (line 140). -/
def tetris_pack (geoms : List Geom) (width stepx stepy : Frac) (nbo : ℕ) :
    Option Geom :=
  (tetris_packFull geoms width stepx stepy nbo).map fun p => p.2.result

/-- The sequence of committed placements, one per piece, in input order. -/
def tetris_packTrace (geoms : List Geom) (width stepx stepy : Frac) (nbo : ℕ) :
    Option (List Candidate) :=
  (tetris_packFull geoms width stepx stepy nbo).map fun p => p.1

/-- The 2x2 square piece of the specification's single-square scenario:
corners `(-1,-1),(1,-1),(1,1),(-1,1)`, pivot at its centre. -/
def sqPiece : Geom :=
  [⟨Frac.ofInt (-1), Frac.ofInt (-1), Frac.ofInt 1, Frac.ofInt 1⟩]

/-- A piece of width 6 (wider than a sheet of width 5). -/
def widePiece : Geom :=
  [⟨Frac.ofInt (-3), Frac.ofInt (-1), Frac.ofInt 3, Frac.ofInt 1⟩]

/-- A 2x2 square with the pivot at its lower-left corner. -/
def cornerSq : Geom :=
  [⟨Frac.ofInt 0, Frac.ofInt 0, Frac.ofInt 2, Frac.ofInt 2⟩]

/-- A piece extending 2 to the left of its pivot. -/
def leftPiece : Geom :=
  [⟨Frac.ofInt (-2), Frac.ofInt 0, Frac.ofInt 0, Frac.ofInt 2⟩]

/-- A piece extending to the right of its pivot, starting at `x = 1/2`. -/
def rightPiece : Geom :=
  [⟨⟨1, 2, by norm_num⟩, Frac.ofInt 0, Frac.ofInt 2, Frac.ofInt 2⟩]

namespace Frac

theorem dQ_pos (a : Frac) : (0 : ℚ) < (a.d : ℚ) := by exact_mod_cast a.dpos

theorem toQ_ofInt (k : ℤ) : (ofInt k).toQ = (k : ℚ) := by
  simp [ofInt, toQ]

theorem toQ_zero : (0 : Frac).toQ = 0 := by
  show (ofInt _).toQ = 0
  rw [toQ_ofInt]; norm_num

theorem le_iff {a b : Frac} : a ≤ b ↔ a.toQ ≤ b.toQ := by
  show a.n * b.d ≤ b.n * a.d ↔ _
  rw [toQ, toQ, div_le_div_iff a.dQ_pos b.dQ_pos]
  constructor <;> intro h <;> exact_mod_cast h

theorem lt_iff {a b : Frac} : a < b ↔ a.toQ < b.toQ := by
  show a.n * b.d < b.n * a.d ↔ _
  rw [toQ, toQ, div_lt_div_iff a.dQ_pos b.dQ_pos]
  constructor <;> intro h <;> exact_mod_cast h

theorem eqv_iff {a b : Frac} : a.eqv b ↔ a.toQ = b.toQ := by
  rw [eqv, toQ, toQ, div_eq_div_iff a.dQ_pos.ne' b.dQ_pos.ne']
  constructor <;> intro h <;> exact_mod_cast h

theorem toQ_add (a b : Frac) : (a + b).toQ = a.toQ + b.toQ := by
  show (Frac.add a b).toQ = _
  have ha := a.dQ_pos.ne'
  have hb := b.dQ_pos.ne'
  simp only [Frac.add, toQ]
  push_cast
  field_simp

theorem toQ_mul (a b : Frac) : (a * b).toQ = a.toQ * b.toQ := by
  show (Frac.mul a b).toQ = _
  have ha := a.dQ_pos.ne'
  have hb := b.dQ_pos.ne'
  simp only [Frac.mul, toQ]
  push_cast
  field_simp

theorem toQ_neg (a : Frac) : (-a).toQ = -a.toQ := by
  show (Frac.neg a).toQ = _
  simp only [Frac.neg, toQ]
  push_cast
  ring

theorem toQ_sub (a b : Frac) : (a - b).toQ = a.toQ - b.toQ := by
  show (Frac.add a (Frac.neg b)).toQ = _
  have h1 : Frac.add a (Frac.neg b) = a + (-b) := rfl
  rw [h1, toQ_add, toQ_neg]
  ring

theorem le_refl (a : Frac) : a ≤ a := le_iff.mpr (by norm_num)

theorem le_trans {a b c : Frac} (h1 : a ≤ b) (h2 : b ≤ c) : a ≤ c :=
  le_iff.mpr ((le_iff.mp h1).trans (le_iff.mp h2))

theorem toQ_pymax (a b : Frac) : (pymax a b).toQ = max a.toQ b.toQ := by
  rw [pymax]
  by_cases h : b ≤ a
  · rw [if_pos h, max_eq_left (le_iff.mp h)]
  · rw [if_neg h]
    rw [le_iff] at h
    rw [max_eq_right (le_of_not_le h)]

theorem toQ_fmin (a b : Frac) : (fmin a b).toQ = min a.toQ b.toQ := by
  rw [fmin]
  by_cases h : a ≤ b
  · rw [if_pos h, min_eq_left (le_iff.mp h)]
  · rw [if_neg h]
    rw [le_iff] at h
    rw [min_eq_right (le_of_not_le h)]

theorem toQ_fmax (a b : Frac) : (fmax a b).toQ = max a.toQ b.toQ := by
  rw [fmax]
  by_cases h : b ≤ a
  · rw [if_pos h, max_eq_left (le_iff.mp h)]
  · rw [if_neg h]
    rw [le_iff] at h
    rw [max_eq_right (le_of_not_le h)]

theorem pymax_le_left (a b : Frac) : a ≤ pymax a b :=
  le_iff.mpr (by rw [toQ_pymax]; exact le_max_left _ _)

theorem floor_eq (a : Frac) : a.floor = ⌊a.toQ⌋ := by
  obtain ⟨n, d, hd⟩ := a
  obtain ⟨m, rfl⟩ : ∃ m : ℕ, d = (m : ℤ) := ⟨d.toNat, by omega⟩
  show n / (m : ℤ) = ⌊toQ ⟨n, (m : ℤ), hd⟩⌋
  rw [toQ]
  rw [show (((m : ℤ) : ℚ)) = ((m : ℕ) : ℚ) by norm_cast]
  rw [Rat.floor_intCast_div_natCast]

theorem ceil_eq (a : Frac) : a.ceil = ⌈a.toQ⌉ := by
  have h : Frac.floor (Frac.neg a) = ⌊(-a).toQ⌋ := floor_eq (Frac.neg a)
  show -(Frac.floor (Frac.neg a)) = _
  rw [h, toQ_neg, Int.floor_neg, neg_neg]

end Frac

theorem keyLt_iff {p q : Frac × ℤ} :
    keyLt p q ↔ (p.1.toQ < q.1.toQ ∨ (p.1.toQ = q.1.toQ ∧ p.2 < q.2)) := by
  rw [keyLt, Frac.lt_iff, Frac.eqv_iff]

theorem keyLt_of_not_lt_of_lt {p q s : Frac × ℤ}
    (h1 : ¬ keyLt q p) (h2 : keyLt q s) : keyLt p s := by
  rw [keyLt_iff] at h1 h2 ⊢
  push_neg at h1
  rcases h2 with h2 | ⟨h2a, h2b⟩
  · rcases lt_or_le p.1.toQ q.1.toQ with h | h
    · exact Or.inl (h.trans h2)
    · exact Or.inl (lt_of_le_of_lt (le_of_eq (le_antisymm (h1.1) h)) h2)
  · rcases lt_or_le p.1.toQ q.1.toQ with h | h
    · exact Or.inl (h.trans_eq h2a)
    · have hpq : p.1.toQ = q.1.toQ := le_antisymm h1.1 h
      have := h1.2 hpq.symm
      exact Or.inr ⟨hpq.trans h2a, lt_of_le_of_lt this h2b⟩

theorem keyLt_of_lt_of_not_lt {p q s : Frac × ℤ}
    (h1 : keyLt p q) (h2 : ¬ keyLt s q) : keyLt p s := by
  rw [keyLt_iff] at h1 h2 ⊢
  push_neg at h2
  rcases h1 with h1 | ⟨h1a, h1b⟩
  · rcases lt_or_le q.1.toQ s.1.toQ with h | h
    · exact Or.inl (h1.trans h)
    · exact Or.inl (lt_of_lt_of_le h1 (le_of_eq (le_antisymm h2.1 h)))
  · rcases lt_or_le q.1.toQ s.1.toQ with h | h
    · exact Or.inl (h1a.trans_lt h)
    · have hqs : q.1.toQ = s.1.toQ := le_antisymm h2.1 h
      have := h2.2 hqs.symm
      exact Or.inr ⟨h1a.trans hqs, lt_of_lt_of_le h1b this⟩

theorem lput_length (l : List Frac) (k : ℕ) (v : Frac) :
    (lput l k v).length = l.length := by
  induction l generalizing k with
  | nil => rfl
  | cons a l ih =>
    cases k with
    | zero => rfl
    | succ k => simp [lput, ih]

theorem lget_lput (l : List Frac) (k m : ℕ) (v : Frac) :
    lget (lput l k v) m = if k = m ∧ k < l.length then v else lget l m := by
  induction l generalizing k m with
  | nil => simp [lput, lget]
  | cons a l ih =>
    cases k with
    | zero =>
      cases m with
      | zero => simp [lput, lget]
      | succ m => simp [lput, lget]
    | succ k =>
      cases m with
      | zero => simp [lput, lget]
      | succ m =>
        simp only [lput, lget, ih, List.length_cons]
        by_cases h : k = m ∧ k < l.length
        · rw [if_pos h, if_pos ⟨by omega, by omega⟩]
        · rw [if_neg h, if_neg (by omega)]

theorem pySet_length (l : List Frac) (i : ℤ) (v : Frac) :
    (pySet l i v).length = l.length := by
  rw [pySet]
  by_cases h : pySlot l.length i < 0
  · simp [h]
  · simp [h, lput_length]

theorem pyGet_pySet (l : List Frac) (i : ℤ) (v : Frac) (k : ℤ) :
    pyGet (pySet l i v) k = pyGet l k ∨
      (pyGet (pySet l i v) k = v ∧ pyGet l k = pyGet l i) := by
  simp only [pyGet, pySet]
  by_cases hi : pySlot l.length i < 0
  · simp only [if_pos hi]
    exact Or.inl trivial
  · simp only [if_neg hi, lput_length]
    by_cases hk : pySlot l.length k < 0
    · simp only [if_pos hk]
      exact Or.inl trivial
    · simp only [if_neg hk, lget_lput]
      by_cases he : (pySlot l.length i).toNat = (pySlot l.length k).toNat ∧
          (pySlot l.length i).toNat < l.length
      · simp only [if_pos he]
        exact Or.inr ⟨trivial, by rw [← he.1]⟩
      · simp only [if_neg he]
        exact Or.inl trivial

theorem pyGet_pySet_mono (l : List Frac) (i : ℤ) (v : Frac)
    (h : pyGet l i ≤ v) (k : ℤ) : pyGet l k ≤ pyGet (pySet l i v) k := by
  rcases pyGet_pySet l i v k with h1 | ⟨h1, h2⟩
  · rw [h1]; exact Frac.le_refl _
  · rw [h1, h2]; exact h

theorem pyGet_replicate_zero (m : ℕ) (k : ℤ) :
    pyGet (List.replicate m 0) k = 0 := by
  have hg : ∀ j : ℕ, lget (List.replicate m 0) j = 0 := by
    intro j
    induction m generalizing j with
    | zero => simp [lget]
    | succ m ih =>
      cases j with
      | zero => simp [List.replicate, lget]
      | succ j => simp [List.replicate, lget, ih]
  simp only [pyGet, List.length_replicate]
  by_cases h : pySlot m k < 0
  · rw [if_pos h]
  · rw [if_neg h]
    exact hg _

theorem keyLt_trans {p q s : Frac × ℤ} (h1 : keyLt p q) (h2 : keyLt q s) : keyLt p s := by
  rw [keyLt_iff] at h1 h2 ⊢
  rcases h1 with h1 | ⟨h1a, h1b⟩
  · rcases h2 with h2 | ⟨h2a, h2b⟩
    · exact Or.inl (h1.trans h2)
    · exact Or.inl (h1.trans_eq h2a)
  · rcases h2 with h2 | ⟨h2a, h2b⟩
    · exact Or.inl (h1a.trans_lt h2)
    · exact Or.inr ⟨h1a.trans h2a, h1b.trans h2b⟩

theorem minFold_spec (cs : List Candidate) (c : Candidate) :
    ∃ pre post, c :: cs = pre ++ minFold c cs :: post ∧
      (∀ d ∈ c :: cs, ¬ keyLt (candKey d) (candKey (minFold c cs))) ∧
      (∀ d ∈ pre, keyLt (candKey (minFold c cs)) (candKey d)) := by
  induction cs generalizing c with
  | nil =>
    refine ⟨[], [], rfl, ?_, by simp⟩
    intro d hd
    rw [List.mem_singleton] at hd
    subst hd
    show ¬ keyLt (candKey d) (candKey d)
    rw [keyLt_iff]
    push_neg
    exact ⟨le_rfl, fun _ => le_rfl⟩
  | cons d tl ih =>
    by_cases h : keyLt (candKey d) (candKey c)
    · have hstep : minFold c (d :: tl) = minFold d tl := by
        simp only [minFold, List.foldl_cons, if_pos h]
      obtain ⟨pre, post, hsplit, hmin, hpre⟩ := ih d
      rw [hstep]
      have hdr : ¬ keyLt (candKey d) (candKey (minFold d tl)) :=
        hmin d (by simp)
      refine ⟨c :: pre, post, ?_, ?_, ?_⟩
      · rw [List.cons_append, ← hsplit]
      · intro e he
        rw [List.mem_cons] at he
        rcases he with rfl | he
        · exact fun hcr => hdr (keyLt_trans h hcr)
        · exact hmin e he
      · intro e he
        rw [List.mem_cons] at he
        rcases he with rfl | he
        · exact keyLt_of_not_lt_of_lt hdr h
        · exact hpre e he
    · have hstep : minFold c (d :: tl) = minFold c tl := by
        simp only [minFold, List.foldl_cons, if_neg h]
      obtain ⟨pre, post, hsplit, hmin, hpre⟩ := ih c
      rw [hstep]
      cases pre with
      | nil =>
        rw [List.nil_append] at hsplit
        have hc : c = minFold c tl := (List.cons.injEq _ _ _ _).mp hsplit |>.1
        refine ⟨[], d :: tl, ?_, ?_, by simp⟩
        · rw [List.nil_append, ← hc]
        · intro e he
          rw [List.mem_cons] at he
          rcases he with rfl | he
          · exact hmin e (by simp)
          · rw [List.mem_cons] at he
            rcases he with rfl | he
            · rw [← hc]; exact h
            · exact hmin e (by simp [he])
      | cons p pre' =>
        rw [List.cons_append] at hsplit
        have htl : tl = pre' ++ minFold c tl :: post :=
          ((List.cons.injEq _ _ _ _).mp hsplit).2
        have hpc : c = p := ((List.cons.injEq _ _ _ _).mp hsplit).1
        cases hpc
        have hrc : keyLt (candKey (minFold c tl)) (candKey c) := hpre c (by simp)
        refine ⟨c :: d :: pre', post, ?_, ?_, ?_⟩
        · rw [List.cons_append, List.cons_append, ← htl]
        · intro e he
          rw [List.mem_cons] at he
          rcases he with rfl | he
          · exact hmin e (by simp)
          · rw [List.mem_cons] at he
            rcases he with rfl | he
            · exact fun hdr' => h (keyLt_trans hdr' hrc)
            · exact hmin e (by simp [he])
        · intro e he
          rw [List.mem_cons] at he
          rcases he with rfl | he
          · exact hrc
          · rw [List.mem_cons] at he
            rcases he with rfl | he
            · exact keyLt_of_lt_of_not_lt hrc h
            · exact hpre e (by simp [he])

theorem pyMin_spec {l : List Candidate} {c : Candidate} (h : pyMin l = some c) :
    ∃ pre post, l = pre ++ c :: post ∧
      (∀ d ∈ l, ¬ keyLt (candKey d) (candKey c)) ∧
      (∀ d ∈ pre, keyLt (candKey c) (candKey d)) := by
  cases l with
  | nil => cases h
  | cons a cs =>
    have hc : minFold a cs = c := by
      have : some (minFold a cs) = some c := h
      injection this
    obtain ⟨pre, post, hsplit, hmin, hpre⟩ := minFold_spec cs a
    rw [hc] at hsplit hmin hpre
    exact ⟨pre, post, hsplit, hmin, hpre⟩

theorem pyMin_mem {l : List Candidate} {c : Candidate} (h : pyMin l = some c) : c ∈ l := by
  obtain ⟨pre, post, hsplit, -, -⟩ := pyMin_spec h
  rw [hsplit]
  simp

namespace Frac

theorem toQ_div (a b : Frac) : (a / b).toQ = a.toQ / b.toQ := by
  show (Frac.div a b).toQ = _
  rw [Frac.div]
  by_cases hb : b.n = 0
  · rw [dif_pos hb]
    have hbz : b.toQ = 0 := by rw [toQ, hb]; norm_num
    rw [hbz, div_zero, toQ]
    norm_num
  · rw [dif_neg hb]
    have hbn : (b.n : ℚ) ≠ 0 := Int.cast_ne_zero.mpr hb
    have had : ((a.d : ℤ) : ℚ) ≠ 0 := a.dQ_pos.ne'
    have hbd : ((b.d : ℤ) : ℚ) ≠ 0 := b.dQ_pos.ne'
    rcases lt_or_gt_of_ne hb with hneg | hpos
    · have hs : b.n.sign = -1 := Int.sign_eq_neg_one_iff_neg.mpr hneg
      have habs : ((b.n.natAbs : ℕ) : ℤ) = -b.n := by omega
      rw [toQ, toQ, toQ, hs]
      rw [show ((a.d * (b.n.natAbs : ℕ) : ℤ) : ℚ) = (a.d : ℚ) * (-(b.n : ℚ)) by
        push_cast [habs]; ring]
      field_simp
    · have hs : b.n.sign = 1 := Int.sign_eq_one_iff_pos.mpr hpos
      have habs : ((b.n.natAbs : ℕ) : ℤ) = b.n := by omega
      rw [toQ, toQ, toQ, hs]
      rw [show ((a.d * (b.n.natAbs : ℕ) : ℤ) : ℚ) = (a.d : ℚ) * (b.n : ℚ) by
        push_cast [habs]; ring]
      field_simp

theorem lt_toQ {a b : Frac} (h : a < b) : a.toQ < b.toQ := lt_iff.mp h

theorem zero_toQ_lt {s : Frac} (h : (0 : Frac) < s) : (0 : ℚ) < s.toQ := by
  have := lt_iff.mp h
  rwa [toQ_zero] at this

end Frac

theorem gInters_eq_false_iff {g h : Geom} :
    gInters g h = false ↔ ∀ a ∈ g, ∀ b ∈ h, a.inters b = false := by
  rw [gInters]
  simp

theorem Rect.inters_eq_false_of_above {a b : Rect} (h : ¬ (b.miny ≤ a.maxy)) :
    a.inters b = false := by
  rw [Rect.inters]
  simp [h]

theorem le_gMaxY {g : Geom} {r : Rect} (hr : r ∈ g) : r.maxy.toQ ≤ (gMaxY g).toQ := by
  have hinit : ∀ (l : List Rect) (m : Frac),
      m.toQ ≤ (l.foldl (fun m r => Frac.fmax m r.maxy) m).toQ := by
    intro l
    induction l with
    | nil => intro m; exact le_rfl
    | cons a l ih =>
      intro m
      refine le_trans ?_ (ih (Frac.fmax m a.maxy))
      rw [Frac.toQ_fmax]
      exact le_max_left _ _
  have haux : ∀ (l : List Rect) (m : Frac) (r : Rect), r ∈ l →
      r.maxy.toQ ≤ (l.foldl (fun m r => Frac.fmax m r.maxy) m).toQ := by
    intro l
    induction l with
    | nil => intro m r hr; cases hr
    | cons a l ih =>
      intro m r hr
      rw [List.mem_cons] at hr
      rw [List.foldl_cons]
      rcases hr with rfl | hr
      · refine le_trans ?_ (hinit l (Frac.fmax m r.maxy))
        rw [Frac.toQ_fmax]
        exact le_max_right _ _
      · exact ih (Frac.fmax m a.maxy) r hr
  exact haux g 0 r hr

theorem gMinY_le {g : Geom} {r : Rect} (hr : r ∈ g) : (gMinY g).toQ ≤ r.miny.toQ := by
  have hinit : ∀ (l : List Rect) (m : Frac),
      (l.foldl (fun m r => Frac.fmin m r.miny) m).toQ ≤ m.toQ := by
    intro l
    induction l with
    | nil => intro m; exact le_rfl
    | cons a l ih =>
      intro m
      refine le_trans (ih (Frac.fmin m a.miny)) ?_
      rw [Frac.toQ_fmin]
      exact min_le_left _ _
  have haux : ∀ (l : List Rect) (m : Frac) (r : Rect), r ∈ l →
      (l.foldl (fun m r => Frac.fmin m r.miny) m).toQ ≤ r.miny.toQ := by
    intro l
    induction l with
    | nil => intro m r hr; cases hr
    | cons a l ih =>
      intro m r hr
      rw [List.mem_cons] at hr
      rw [List.foldl_cons]
      rcases hr with rfl | hr
      · refine le_trans (hinit l (Frac.fmin m r.miny)) ?_
        rw [Frac.toQ_fmin]
        exact min_le_right _ _
      · exact ih (Frac.fmin m a.miny) r hr
  exact haux g 0 r hr

theorem probeHit_fuel (S gx : Geom) (y0 stepy : Frac) (hs : (0 : Frac) < stepy) :
    probeHit S gx y0 stepy (probeFuel S gx y0 stepy) = false := by
  have hsQ : (0 : ℚ) < stepy.toQ := Frac.zero_toQ_lt hs
  set F := probeFuel S gx y0 stepy with hF
  have hFne : F ≠ 0 := by
    rw [hF, probeFuel]; omega
  have hDQ : ((gMaxY S - gMinY gx) - y0).toQ =
      (gMaxY S).toQ - (gMinY gx).toQ - y0.toQ := by
    rw [Frac.toQ_sub, Frac.toQ_sub]
  have hFgt : (gMaxY S).toQ - (gMinY gx).toQ - y0.toQ < (F : ℚ) * stepy.toQ := by
    set q : ℚ := ((gMaxY S).toQ - (gMinY gx).toQ - y0.toQ) / stepy.toQ with hq
    have hceil : (((gMaxY S - gMinY gx) - y0) / stepy).ceil = ⌈q⌉ := by
      rw [Frac.ceil_eq, Frac.toQ_div, hDQ]
    have h1 : q ≤ (⌈q⌉ : ℚ) := Int.le_ceil q
    have h2 : (⌈q⌉ : ℚ) ≤ ((⌈q⌉.toNat : ℕ) : ℚ) := by
      exact_mod_cast Int.self_le_toNat _
    have h3 : (F : ℚ) = ((⌈q⌉.toNat : ℕ) : ℚ) + 2 := by
      rw [hF, probeFuel, hceil]
      push_cast
      ring
    have h4 : q < (F : ℚ) := by rw [h3]; linarith
    have h5 : q * stepy.toQ < (F : ℚ) * stepy.toQ :=
      mul_lt_mul_of_pos_right h4 hsQ
    rwa [hq, div_mul_cancel₀ _ hsQ.ne'] at h5
  rw [probeHit, probeGeom, if_neg hFne]
  rw [gInters_eq_false_iff]
  intro a ha b' hb'
  rw [gTranslate, List.mem_map] at hb'
  obtain ⟨b, hb, rfl⟩ := hb'
  apply Rect.inters_eq_false_of_above
  intro hcon
  have hle : (Rect.translate 0 (y0 + Frac.ofInt (F : ℤ) * stepy) b).miny.toQ ≤
      a.maxy.toQ := Frac.le_iff.mp hcon
  have hminy : (Rect.translate 0 (y0 + Frac.ofInt (F : ℤ) * stepy) b).miny.toQ =
      b.miny.toQ + (y0.toQ + (F : ℚ) * stepy.toQ) := by
    show (b.miny + (y0 + Frac.ofInt (F : ℤ) * stepy)).toQ = _
    rw [Frac.toQ_add, Frac.toQ_add, Frac.toQ_mul, Frac.toQ_ofInt]
    push_cast
    ring
  have hA : a.maxy.toQ ≤ (gMaxY S).toQ := le_gMaxY ha
  have hB : (gMinY gx).toQ ≤ b.miny.toQ := gMinY_le hb
  rw [hminy] at hle
  linarith

theorem probeLoop_spec (S gx : Geom) (y0 stepy : Frac) (fuel k : ℕ)
    (h : probeHit S gx y0 stepy (k + fuel) = false) :
    probeHit S gx y0 stepy (probeLoop S gx y0 stepy fuel k) = false ∧
      k ≤ probeLoop S gx y0 stepy fuel k ∧
      ∀ j, k ≤ j → j < probeLoop S gx y0 stepy fuel k →
        probeHit S gx y0 stepy j = true := by
  induction fuel generalizing k with
  | zero =>
    rw [Nat.add_zero] at h
    have hl : probeLoop S gx y0 stepy 0 k = k := rfl
    rw [hl]
    refine ⟨h, Nat.le_refl _, ?_⟩
    intro j h1 h2
    omega
  | succ fuel ih =>
    have hstep : probeLoop S gx y0 stepy (fuel + 1) k =
        if probeHit S gx y0 stepy k then probeLoop S gx y0 stepy fuel (k + 1) else k := rfl
    rw [hstep]
    by_cases hk : probeHit S gx y0 stepy k = true
    · rw [if_pos hk]
      have h' : probeHit S gx y0 stepy (k + 1 + fuel) = false := by
        rw [show k + 1 + fuel = k + (fuel + 1) by omega]
        exact h
      obtain ⟨ha, hb, hc⟩ := ih (k + 1) h'
      refine ⟨ha, by omega, ?_⟩
      intro j h1 h2
      rcases Nat.eq_or_lt_of_le h1 with rfl | h1'
      · exact hk
      · exact hc j h1' h2
    · rw [if_neg hk]
      refine ⟨Bool.eq_false_iff.mpr hk, Nat.le_refl _, ?_⟩
      intro j h1 h2
      omega

theorem probe_spec (S gx : Geom) (y0 stepy : Frac) (hs : (0 : Frac) < stepy) :
    probeHit S gx y0 stepy (probe S gx y0 stepy) = false ∧
      ∀ j < probe S gx y0 stepy, probeHit S gx y0 stepy j = true := by
  have h0 : probeHit S gx y0 stepy (0 + probeFuel S gx y0 stepy) = false := by
    rw [Nat.zero_add]
    exact probeHit_fuel S gx y0 stepy hs
  obtain ⟨ha, -, hc⟩ := probeLoop_spec S gx y0 stepy (probeFuel S gx y0 stepy) 0 h0
  exact ⟨ha, fun j hj => hc j (Nat.zero_le _) hj⟩

theorem mem_candidatesFor {st : PackState} {width stepx stepy : Frac} {nbo : ℕ}
    {geom : Geom} {c : Candidate}
    (hc : c ∈ candidatesFor st width stepx stepy nbo geom) :
    ∃ i x, i < nbo ∧ x ∈ colRange width stepx (gBounds (rotated nbo i geom)) ∧
      c = mkCandidate st.simplified st.starting_yoffs stepy
            (gBounds (rotated nbo i geom))
            (xshift stepx (gBounds (rotated nbo i geom)) x (rotated nbo i geom)) x := by
  rw [candidatesFor, List.mem_flatMap] at hc
  obtain ⟨i, hi, hc⟩ := hc
  rw [List.mem_range] at hi
  rw [List.mem_map] at hc
  obtain ⟨x, hx, rfl⟩ := hc
  exact ⟨i, x, hi, hx, rfl⟩

theorem mem_candidatesFor_intro {st : PackState} {width stepx stepy : Frac} {nbo : ℕ}
    {geom : Geom} {i : ℕ} {x : ℤ} (hi : i < nbo)
    (hx : x ∈ colRange width stepx (gBounds (rotated nbo i geom))) :
    mkCandidate st.simplified st.starting_yoffs stepy (gBounds (rotated nbo i geom))
        (xshift stepx (gBounds (rotated nbo i geom)) x (rotated nbo i geom)) x ∈
      candidatesFor st width stepx stepy nbo geom := by
  rw [candidatesFor, List.mem_flatMap]
  exact ⟨i, List.mem_range.mpr hi, List.mem_map.mpr ⟨x, hx, rfl⟩⟩

theorem candidate_geom_free {st : PackState} {width stepx stepy : Frac} {nbo : ℕ}
    {geom : Geom} {c : Candidate} (hs : (0 : Frac) < stepy)
    (hc : c ∈ candidatesFor st width stepx stepy nbo geom) :
    gInters st.simplified c.geom = false := by
  obtain ⟨i, x, hi, hx, rfl⟩ := mem_candidatesFor hc
  exact (probe_spec st.simplified _ _ stepy hs).1

theorem candidate_yoff_ge {st : PackState} {width stepx stepy : Frac} {nbo : ℕ}
    {geom : Geom} {c : Candidate} (hs : (0 : Frac) < stepy)
    (hc : c ∈ candidatesFor st width stepx stepy nbo geom) :
    pyGet st.starting_yoffs c.x ≤ c.yoff := by
  obtain ⟨i, x, hi, hx, rfl⟩ := mem_candidatesFor hc
  rw [Frac.le_iff]
  show (pyGet st.starting_yoffs x).toQ ≤
    (pyGet st.starting_yoffs x + Frac.ofInt _ * stepy).toQ
  rw [Frac.toQ_add, Frac.toQ_mul, Frac.toQ_ofInt]
  have h1 : 0 ≤ (((probe st.simplified
      (xshift stepx (gBounds (rotated nbo i geom)) x (rotated nbo i geom))
      (pyGet st.starting_yoffs x) stepy : ℕ) : ℤ) : ℚ) * stepy.toQ :=
    mul_nonneg (by positivity) (Frac.zero_toQ_lt hs).le
  linarith

theorem foldl_raise_mono (m : Frac) (xs : List ℤ) (l : List Frac) (k : ℤ) :
    pyGet l k ≤
      pyGet (xs.foldl (fun l x => pySet l x (Frac.pymax (pyGet l x) m)) l) k := by
  induction xs generalizing l with
  | nil => exact Frac.le_refl _
  | cons x xs ih =>
    rw [List.foldl_cons]
    refine Frac.le_trans ?_ (ih (pySet l x (Frac.pymax (pyGet l x) m)) )
    exact pyGet_pySet_mono l x _ (Frac.pymax_le_left _ _) k

theorem foldl_raise_le (m : Frac) (xs : List ℤ) (l : List Frac) (k : ℤ) :
    (pyGet (xs.foldl (fun l x => pySet l x (Frac.pymax (pyGet l x) m)) l) k).toQ ≤
      max (pyGet l k).toQ m.toQ := by
  induction xs generalizing l with
  | nil => exact le_max_left _ _
  | cons x xs ih =>
    rw [List.foldl_cons]
    refine le_trans (ih (pySet l x (Frac.pymax (pyGet l x) m))) ?_
    refine max_le ?_ (le_max_right _ _)
    rcases pyGet_pySet l x (Frac.pymax (pyGet l x) m) k with h1 | ⟨h1, h2⟩
    · rw [h1]
      exact le_max_left _ _
    · rw [h1, Frac.toQ_pymax, h2]

theorem commitPiece_yoffs_eq (st : PackState) (stepx : Frac) (best : Candidate) :
    (commitPiece st stepx best).starting_yoffs =
      commitYoffs st.starting_yoffs stepx best := rfl

theorem commit_yoffs_mono (st : PackState) (stepx : Frac) (best : Candidate)
    (hbest : pyGet st.starting_yoffs best.x ≤ best.yoff) (k : ℤ) :
    pyGet st.starting_yoffs k ≤ pyGet (commitPiece st stepx best).starting_yoffs k := by
  rw [commitPiece_yoffs_eq, commitYoffs]
  refine Frac.le_trans (pyGet_pySet_mono st.starting_yoffs best.x best.yoff hbest k) ?_
  exact foldl_raise_mono _ _ _ k

theorem commit_yoffs_le (st : PackState) (stepx : Frac) (best : Candidate) (k : ℤ) :
    (pyGet (commitPiece st stepx best).starting_yoffs k).toQ ≤
      max (pyGet st.starting_yoffs k).toQ
        (max best.yoff.toQ (gBounds best.geom).miny.toQ) := by
  rw [commitPiece_yoffs_eq, commitYoffs]
  refine le_trans (foldl_raise_le (gBounds best.geom).miny _
    (pySet st.starting_yoffs best.x best.yoff) k) ?_
  refine max_le ?_ ?_
  · rcases pyGet_pySet st.starting_yoffs best.x best.yoff k with h1 | ⟨h1, h2⟩
    · rw [h1]
      exact le_max_left _ _
    · rw [h1]
      exact le_trans
        (le_max_left best.yoff.toQ (gBounds best.geom).miny.toQ)
        (le_max_right (pyGet st.starting_yoffs k).toQ
          (max best.yoff.toQ (gBounds best.geom).miny.toQ))
  · exact le_trans
      (le_max_right best.yoff.toQ (gBounds best.geom).miny.toQ)
      (le_max_right (pyGet st.starting_yoffs k).toQ
        (max best.yoff.toQ (gBounds best.geom).miny.toQ))

theorem placePiece_some {st : PackState} {width stepx stepy : Frac} {nbo : ℕ}
    {geom : Geom} {best : Candidate} {st' : PackState}
    (h : placePiece st width stepx stepy nbo geom = some (best, st')) :
    pyMin (candidatesFor st width stepx stepy nbo geom) = some best ∧
      st' = commitPiece st stepx best := by
  rw [placePiece] at h
  rcases hmin : pyMin (candidatesFor st width stepx stepy nbo geom) with _ | c
  · rw [hmin] at h
    cases h
  · rw [hmin] at h
    have h2 : (c, commitPiece st stepx c) = (best, st') := by injection h
    have hc : c = best := congrArg Prod.fst h2
    have hst : commitPiece st stepx c = st' := congrArg Prod.snd h2
    subst hc
    exact ⟨rfl, hst.symm⟩

theorem placePiece_none {st : PackState} {width stepx stepy : Frac} {nbo : ℕ}
    {geom : Geom} (h : candidatesFor st width stepx stepy nbo geom = []) :
    placePiece st width stepx stepy nbo geom = none := by
  rw [placePiece, h]
  rfl

theorem commitPiece_simplified_super (st : PackState) (stepx : Frac)
    (best : Candidate) {a : Rect} (ha : a ∈ st.simplified ∨ a ∈ best.geom) :
    a ∈ (commitPiece st stepx best).simplified := by
  show a ∈ gUnion (gUnion st.simplified best.geom) [shadowRect (gBounds best.geom)]
  rw [gUnion, gUnion]
  rcases ha with ha | ha
  · exact List.mem_append_left _ (List.mem_append_left _ ha)
  · exact List.mem_append_left _ (List.mem_append_right _ ha)

theorem packGo_fresh (width stepx stepy : Frac) (nbo : ℕ) (hs : (0 : Frac) < stepy) :
    ∀ (gs : List Geom) (st : PackState) (tr : List Candidate) (stf : PackState),
      packGo width stepx stepy nbo st gs = some (tr, stf) →
      ∀ d ∈ tr, ∀ a ∈ st.simplified, ∀ b ∈ d.geom, a.inters b = false := by
  intro gs
  induction gs with
  | nil =>
    intro st tr stf h d hd
    have htr : ([] : List Candidate) = tr := by
      have h2 : (([] : List Candidate), st) = (tr, stf) := by injection h
      exact congrArg Prod.fst h2
    rw [← htr] at hd
    cases hd
  | cons g gs ih =>
    intro st tr stf h d hd
    rw [packGo] at h
    obtain ⟨⟨best, st'⟩, hplace, h⟩ := Option.bind_eq_some.mp h
    obtain ⟨⟨tr1, stf1⟩, hrest, h⟩ := Option.map_eq_some'.mp h
    have htr : best :: tr1 = tr := congrArg Prod.fst h
    obtain ⟨hmin, hst'⟩ := placePiece_some hplace
    rw [← htr] at hd
    rw [List.mem_cons] at hd
    intro a ha b hb
    rcases hd with rfl | hd
    · have hfree : gInters st.simplified d.geom = false :=
        candidate_geom_free hs (pyMin_mem hmin)
      exact (gInters_eq_false_iff.mp hfree) a ha b hb
    · have ha' : a ∈ st'.simplified := by
        rw [hst']
        exact commitPiece_simplified_super st stepx best (Or.inl ha)
      exact ih st' tr1 stf1 hrest d hd a ha' b hb

theorem packGo_pairwise (width stepx stepy : Frac) (nbo : ℕ) (hs : (0 : Frac) < stepy) :
    ∀ (gs : List Geom) (st : PackState) (tr : List Candidate) (stf : PackState),
      packGo width stepx stepy nbo st gs = some (tr, stf) →
      tr.Pairwise fun c d => gInters c.geom d.geom = false := by
  intro gs
  induction gs with
  | nil =>
    intro st tr stf h
    have htr : ([] : List Candidate) = tr := by
      have h2 : (([] : List Candidate), st) = (tr, stf) := by injection h
      exact congrArg Prod.fst h2
    rw [← htr]
    exact List.Pairwise.nil
  | cons g gs ih =>
    intro st tr stf h
    rw [packGo] at h
    obtain ⟨⟨best, st'⟩, hplace, h⟩ := Option.bind_eq_some.mp h
    obtain ⟨⟨tr1, stf1⟩, hrest, h⟩ := Option.map_eq_some'.mp h
    have htr : best :: tr1 = tr := congrArg Prod.fst h
    obtain ⟨hmin, hst'⟩ := placePiece_some hplace
    rw [← htr]
    refine List.Pairwise.cons ?_ (ih st' tr1 stf1 hrest)
    intro d hd
    rw [gInters_eq_false_iff]
    intro a ha b hb
    have ha' : a ∈ st'.simplified := by
      rw [hst']
      exact commitPiece_simplified_super st stepx best (Or.inr ha)
    exact packGo_fresh width stepx stepy nbo hs gs st' tr1 stf1 hrest d hd a ha' b hb

theorem Frac.fmin_add_right (a b c : Frac) :
    Frac.fmin (a + c) (b + c) = Frac.fmin a b + c := by
  by_cases h : a ≤ b
  · have h' : a + c ≤ b + c := by
      rw [Frac.le_iff, Frac.toQ_add, Frac.toQ_add]
      exact add_le_add_right (Frac.le_iff.mp h) _
    rw [Frac.fmin, Frac.fmin, if_pos h, if_pos h']
  · have h' : ¬ (a + c ≤ b + c) := by
      intro hcon
      have h2 := Frac.le_iff.mp hcon
      rw [Frac.toQ_add, Frac.toQ_add] at h2
      exact h (Frac.le_iff.mpr (le_of_add_le_add_right h2))
    rw [Frac.fmin, Frac.fmin, if_neg h, if_neg h']

theorem Frac.fmax_add_right (a b c : Frac) :
    Frac.fmax (a + c) (b + c) = Frac.fmax a b + c := by
  by_cases h : b ≤ a
  · have h' : b + c ≤ a + c := by
      rw [Frac.le_iff, Frac.toQ_add, Frac.toQ_add]
      exact add_le_add_right (Frac.le_iff.mp h) _
    rw [Frac.fmax, Frac.fmax, if_pos h, if_pos h']
  · have h' : ¬ (b + c ≤ a + c) := by
      intro hcon
      have h2 := Frac.le_iff.mp hcon
      rw [Frac.toQ_add, Frac.toQ_add] at h2
      exact h (Frac.le_iff.mpr (le_of_add_le_add_right h2))
    rw [Frac.fmax, Frac.fmax, if_neg h, if_neg h']

theorem boundsStep_translate (dx dy : Frac) (r s : Rect) :
    (⟨Frac.fmin (Rect.translate dx dy r).minx (Rect.translate dx dy s).minx,
      Frac.fmin (Rect.translate dx dy r).miny (Rect.translate dx dy s).miny,
      Frac.fmax (Rect.translate dx dy r).maxx (Rect.translate dx dy s).maxx,
      Frac.fmax (Rect.translate dx dy r).maxy (Rect.translate dx dy s).maxy⟩ : Rect) =
    Rect.translate dx dy ⟨Frac.fmin r.minx s.minx, Frac.fmin r.miny s.miny,
      Frac.fmax r.maxx s.maxx, Frac.fmax r.maxy s.maxy⟩ := by
  show (⟨Frac.fmin (r.minx + dx) (s.minx + dx), Frac.fmin (r.miny + dy) (s.miny + dy),
      Frac.fmax (r.maxx + dx) (s.maxx + dx), Frac.fmax (r.maxy + dy) (s.maxy + dy)⟩ : Rect) =
    (⟨Frac.fmin r.minx s.minx + dx, Frac.fmin r.miny s.miny + dy,
      Frac.fmax r.maxx s.maxx + dx, Frac.fmax r.maxy s.maxy + dy⟩ : Rect)
  rw [Frac.fmin_add_right, Frac.fmin_add_right, Frac.fmax_add_right, Frac.fmax_add_right]

theorem gBounds_gTranslate (dx dy : Frac) (r : Rect) (rs : Geom) :
    gBounds (gTranslate dx dy (r :: rs)) = Rect.translate dx dy (gBounds (r :: rs)) := by
  show (rs.map (Rect.translate dx dy)).foldl
      (fun b s => (⟨Frac.fmin b.minx s.minx, Frac.fmin b.miny s.miny,
        Frac.fmax b.maxx s.maxx, Frac.fmax b.maxy s.maxy⟩ : Rect))
      (Rect.translate dx dy r) =
    Rect.translate dx dy (rs.foldl
      (fun b s => (⟨Frac.fmin b.minx s.minx, Frac.fmin b.miny s.miny,
        Frac.fmax b.maxx s.maxx, Frac.fmax b.maxy s.maxy⟩ : Rect)) r)
  rw [List.foldl_map]
  induction rs generalizing r with
  | nil => rfl
  | cons s rs ih =>
    rw [List.foldl_cons, List.foldl_cons]
    rw [boundsStep_translate]
    exact ih _

theorem probeGeom_zero (gx : Geom) (y0 stepy : Frac) : probeGeom gx y0 stepy 0 = gx := rfl

theorem probeLoop_succ (S gx : Geom) (y0 stepy : Frac) (fuel k : ℕ) :
    probeLoop S gx y0 stepy (fuel + 1) k =
      if probeHit S gx y0 stepy k then probeLoop S gx y0 stepy fuel (k + 1) else k := rfl

theorem probe_eq_zero {S gx : Geom} {y0 stepy : Frac}
    (h : probeHit S gx y0 stepy 0 = false) : probe S gx y0 stepy = 0 := by
  rw [probe]
  rw [show probeFuel S gx y0 stepy =
      ((((gMaxY S - gMinY gx) - y0) / stepy).ceil.toNat + 1) + 1 from rfl]
  rw [probeLoop_succ, if_neg]
  simp [h]

/-- C1: No-overlap of committed placements.  For any positive vertical step,
whenever `tetris_pack` completes, the committed geometries of distinct pieces
are pairwise non-intersecting (`gInters = false`), so each pairwise
intersection area is `0`, below any positive epsilon; since trace entries are
immutable once committed, the property holds after every commit of the run.
It holds because a candidate is accepted only when it does not intersect
`simplified_result`, which contains the exact union of all previously
committed geometries. -/
theorem C1_no_overlap (geoms : List Geom) (width stepx stepy : Frac) (nbo : ℕ)
    (tr : List Candidate) (hs : (0 : Frac) < stepy)
    (h : tetris_packTrace geoms width stepx stepy nbo = some tr) :
    tr.Pairwise fun c d => gInters c.geom d.geom = false := by
  rw [tetris_packTrace, tetris_packFull, Option.map_eq_some'] at h
  obtain ⟨⟨tr1, stf⟩, hfull, htr⟩ := h
  cases htr
  exact packGo_pairwise width stepx stepy nbo hs geoms (initState width stepx) tr1 stf hfull

/-- C1 witness: the no-overlap theorem applied to a concrete two-square run
(sheet width 10, unit steps, one orientation). -/
theorem C1_no_overlap_witness :
    ([⟨1, Frac.ofInt 0, Frac.ofInt 2,
        [⟨Frac.ofInt 0, Frac.ofInt 0, Frac.ofInt 2, Frac.ofInt 2⟩]⟩,
      ⟨4, Frac.ofInt 0, Frac.ofInt 2,
        [⟨Frac.ofInt 3, Frac.ofInt 0, Frac.ofInt 5, Frac.ofInt 2⟩]⟩] :
      List Candidate).Pairwise (fun c d => gInters c.geom d.geom = false) :=
  C1_no_overlap [sqPiece, sqPiece] (Frac.ofInt 10) (Frac.ofInt 1) (Frac.ofInt 1) 1 _
    (by decide) (by decide)

/-- C2 counterexample: on the single-square scenario (2x2 square with pivot
at its centre, sheet width 10, unit steps, one orientation) the committed
column index `best_position['x']` is `1`, not `0` as the claim states: the
code's column index positions the piece's pivot, not the bounding-box left
edge, at `x * stepx`, and column `0` is infeasible because the square extends
one unit to the left of its pivot. -/
theorem C2_counterexample :
    tetris_packTrace [sqPiece] (Frac.ofInt 10) (Frac.ofInt 1) (Frac.ofInt 1) 1 =
      some [⟨1, Frac.ofInt 0, Frac.ofInt 2,
        [⟨Frac.ofInt 0, Frac.ofInt 0, Frac.ofInt 2, Frac.ofInt 2⟩]⟩] ∧
    (1 : ℤ) ≠ 0 := by
  exact ⟨by decide, by decide⟩

/-- C2 amended: on the single-square scenario the piece is committed at
column index `1` — the leftmost feasible index in the code's enumeration,
which places the pivot at `x * stepx` and hence the bounding-box left edge at
`0` — at resting height `0`, with final bounding box `minY = 0`,
`maxY = 2`. -/
theorem C2_amended :
    tetris_packTrace [sqPiece] (Frac.ofInt 10) (Frac.ofInt 1) (Frac.ofInt 1) 1 =
      some [⟨1, Frac.ofInt 0, Frac.ofInt 2,
        [⟨Frac.ofInt 0, Frac.ofInt 0, Frac.ofInt 2, Frac.ofInt 2⟩]⟩] ∧
    gBounds [⟨Frac.ofInt 0, Frac.ofInt 0, Frac.ofInt 2, Frac.ofInt 2⟩] =
      ⟨Frac.ofInt 0, Frac.ofInt 0, Frac.ofInt 2, Frac.ofInt 2⟩ := by
  exact ⟨by decide, by decide⟩

/-- C3 counterexample: a piece of width 6 on a sheet of width 5 (feasible
column range empty) makes the whole run abort — `min([])` raises an uncaught
`ValueError`, modelled as `none` — so no structured per-piece error is
reported, and the subsequent piece, which alone would pack fine, is never
placed: the caller is not left free to skip the offending piece. -/
theorem C3_counterexample :
    tetris_packTrace [widePiece, sqPiece] (Frac.ofInt 5) (Frac.ofInt 1) (Frac.ofInt 1) 1 =
      none ∧
    tetris_packTrace [sqPiece] (Frac.ofInt 5) (Frac.ofInt 1) (Frac.ofInt 1) 1 ≠ none := by
  exact ⟨by decide, by decide⟩

/-- C3 amended: a piece whose feasible-column range is empty in every
orientation does not produce a structured `PieceTooWide` report; instead
`min` over the empty candidate list raises an uncaught `ValueError` and the
entire `tetris_pack` run crashes (modelled as `none`), dropping all
results. -/
theorem C3_amended (p : Geom) (rest : List Geom) (width stepx stepy : Frac)
    (nbo : ℕ)
    (h : candidatesFor (initState width stepx) width stepx stepy nbo p = []) :
    tetris_packFull (p :: rest) width stepx stepy nbo = none := by
  rw [tetris_packFull, packGo, placePiece_none h]
  rfl

/-- C3 witness: the amended abort behaviour on the concrete too-wide
piece. -/
theorem C3_amended_witness :
    tetris_packFull [widePiece, sqPiece] (Frac.ofInt 5) (Frac.ofInt 1) (Frac.ofInt 1) 1 =
      none :=
  C3_amended widePiece [sqPiece] (Frac.ofInt 5) (Frac.ofInt 1) (Frac.ofInt 1) 1 (by decide)

/-- C4 counterexample: with sheet width 6, `stepx = 4`, `stepy = 1/4`, one
orientation and two corner squares, the second piece's vertical search
performs 9 raises (`yoff = 0 + 9 * (1/4)`), more than every configured scalar
of the run (width 6, stepx 4, stepy 1/4, one orientation), and the candidate
is recorded and committed rather than being discarded by any
`PackingOverflow` cap: no such cap exists in the code. -/
theorem C4_counterexample :
    tetris_packTrace [cornerSq, cornerSq] (Frac.ofInt 6) (Frac.ofInt 4)
        ⟨1, 4, by norm_num⟩ 1 =
      some [⟨0, ⟨0, 4, by norm_num⟩, ⟨8, 4, by norm_num⟩,
              [⟨Frac.ofInt 0, Frac.ofInt 0, Frac.ofInt 2, Frac.ofInt 2⟩]⟩,
            ⟨0, ⟨36, 16, by norm_num⟩, ⟨68, 16, by norm_num⟩,
              [⟨Frac.ofInt 0, ⟨36, 16, by norm_num⟩, Frac.ofInt 2,
                ⟨68, 16, by norm_num⟩⟩]⟩] ∧
    (⟨36, 16, by norm_num⟩ : Frac).eqv
      (Frac.ofInt 0 + Frac.ofInt 9 * ⟨1, 4, by norm_num⟩) := by
  exact ⟨by decide, by decide⟩

/-- C4 amended: the vertical probe has no configured height or iteration cap
and never discards a candidate.  It nevertheless terminates for every
`(orientation, column)` pair because the occupancy union is bounded: for a
positive `stepy`, every recorded candidate's final geometry is
non-intersecting (the loop exited), and every enumerated pair contributes its
candidate to `possible_positions`. -/
theorem C4_amended (st : PackState) (width stepx stepy : Frac) (nbo : ℕ)
    (geom : Geom) (hs : (0 : Frac) < stepy) :
    (∀ c ∈ candidatesFor st width stepx stepy nbo geom,
        gInters st.simplified c.geom = false) ∧
    ∀ i x, i < nbo → x ∈ colRange width stepx (gBounds (rotated nbo i geom)) →
      mkCandidate st.simplified st.starting_yoffs stepy (gBounds (rotated nbo i geom))
          (xshift stepx (gBounds (rotated nbo i geom)) x (rotated nbo i geom)) x ∈
        candidatesFor st width stepx stepy nbo geom :=
  ⟨fun _ hc => candidate_geom_free hs hc,
   fun _ _ hi hx => mem_candidatesFor_intro hi hx⟩

/-- C4 witness: the amended statement at the concrete configuration of the
counterexample, for the only enumerated (orientation, column) pair. -/
theorem C4_amended_witness :
    mkCandidate (initState (Frac.ofInt 6) (Frac.ofInt 4)).simplified
        (initState (Frac.ofInt 6) (Frac.ofInt 4)).starting_yoffs ⟨1, 4, by norm_num⟩
        (gBounds (rotated 1 0 cornerSq))
        (xshift (Frac.ofInt 4) (gBounds (rotated 1 0 cornerSq)) 0 (rotated 1 0 cornerSq)) 0 ∈
      candidatesFor (initState (Frac.ofInt 6) (Frac.ofInt 4)) (Frac.ofInt 6)
        (Frac.ofInt 4) ⟨1, 4, by norm_num⟩ 1 cornerSq :=
  (C4_amended (initState (Frac.ofInt 6) (Frac.ofInt 4)) (Frac.ofInt 6) (Frac.ofInt 4)
    ⟨1, 4, by norm_num⟩ 1 cornerSq (by decide)).2 0 0 (by decide) (by decide)

/-- C5 counterexample: committing the single 2x2 square (bounding box
`[0,2] x [0,2]`, `topY = 2`) on a width-4 sheet leaves every water level at
`0`: neither the pivot-column assignment (line 125, which writes the resting
`yoff = 0`) nor the span update (lines 133-134, which raises to the bottom
edge `miny = 0`) writes the claimed `topY = 2` anywhere. -/
theorem C5_counterexample :
    (tetris_packFull [sqPiece] (Frac.ofInt 4) (Frac.ofInt 1) (Frac.ofInt 1) 1).map
        (fun p => p.2.starting_yoffs) =
      some [Frac.ofInt 0, Frac.ofInt 0, Frac.ofInt 0, Frac.ofInt 0] ∧
    ¬ (Frac.ofInt 0).eqv (Frac.ofInt 2) := by
  exact ⟨by decide, by decide⟩

/-- C5 amended: a commit updates water levels only to the resting offset
`yoff` (pivot column, line 125) and to the committed geometry's bottom edge
`miny` (spanned columns, lines 133-134): afterwards no stored level exceeds
the maximum of its old value, the resting offset and the bottom edge — in
particular levels are never raised to the bounding box's `topY`. -/
theorem C5_amended (st : PackState) (stepx : Frac) (best : Candidate) (k : ℤ) :
    (pyGet (commitPiece st stepx best).starting_yoffs k).toQ ≤
      max (pyGet st.starting_yoffs k).toQ
        (max best.yoff.toQ (gBounds best.geom).miny.toQ) :=
  commit_yoffs_le st stepx best k

/-- C6 counterexample: the occupancy intersection test used by the vertical
search (`prepared.intersects`, embedded as `gInters`) reports a collision for
two rectangles that merely touch along an edge: the candidate `[0,2] x [0,2]`
and placed material `[0,2] x [2,4]` share only the segment `y = 2`, their
intersection area is `0` — not above any positive tolerance — yet the test
returns `true`.  No tolerance parameter exists in `tetris_pack`'s
signature. -/
theorem C6_counterexample :
    gInters [⟨Frac.ofInt 0, Frac.ofInt 0, Frac.ofInt 2, Frac.ofInt 2⟩]
        [⟨Frac.ofInt 0, Frac.ofInt 2, Frac.ofInt 2, Frac.ofInt 4⟩] = true ∧
    (Rect.interArea ⟨Frac.ofInt 0, Frac.ofInt 0, Frac.ofInt 2, Frac.ofInt 2⟩
        ⟨Frac.ofInt 0, Frac.ofInt 2, Frac.ofInt 2, Frac.ofInt 4⟩).eqv (Frac.ofInt 0) := by
  exact ⟨by decide, by decide⟩

/-- C6 amended: the intersection query is the plain closed-set shapely
`intersects`, with no epsilon margin and no exposed tolerance parameter:
whenever a candidate rectangle touches placed material along a horizontal
edge (equal `maxy`/`miny`, overlapping x-extents), the query answers `true`
even though the overlap area is exactly `0`. -/
theorem C6_amended (a b : Rect) (hax : a.minx ≤ b.maxx) (hbx : b.minx ≤ a.maxx)
    (hay : a.miny ≤ a.maxy) (hby : b.miny ≤ b.maxy)
    (htouch : a.maxy.eqv b.miny) :
    gInters [a] [b] = true ∧ (Rect.interArea a b).toQ = 0 := by
  have he := Frac.eqv_iff.mp htouch
  have hayQ := Frac.le_iff.mp hay
  have hbyQ := Frac.le_iff.mp hby
  have h3 : a.miny ≤ b.maxy := Frac.le_iff.mpr (by linarith)
  have h4 : b.miny ≤ a.maxy := Frac.le_iff.mpr (by linarith)
  constructor
  · simp [gInters, Rect.inters, hax, hbx, h3, h4]
  · simp only [Rect.interArea, Frac.toQ_mul, Frac.toQ_fmax, Frac.toQ_fmin,
      Frac.toQ_sub, Frac.toQ_zero]
    rw [min_eq_left (by linarith : a.maxy.toQ ≤ b.maxy.toQ),
        max_eq_right (by linarith : a.miny.toQ ≤ b.miny.toQ), he]
    simp

/-- C6 witness: the amended statement at the concrete touching pair. -/
theorem C6_amended_witness :
    gInters [⟨Frac.ofInt 0, Frac.ofInt 0, Frac.ofInt 2, Frac.ofInt 2⟩]
        [⟨Frac.ofInt 0, Frac.ofInt 2, Frac.ofInt 2, Frac.ofInt 4⟩] = true ∧
    (Rect.interArea ⟨Frac.ofInt 0, Frac.ofInt 0, Frac.ofInt 2, Frac.ofInt 2⟩
        ⟨Frac.ofInt 0, Frac.ofInt 2, Frac.ofInt 2, Frac.ofInt 4⟩).toQ = 0 :=
  C6_amended ⟨Frac.ofInt 0, Frac.ofInt 0, Frac.ofInt 2, Frac.ofInt 2⟩
    ⟨Frac.ofInt 0, Frac.ofInt 2, Frac.ofInt 2, Frac.ofInt 4⟩
    (by decide) (by decide) (by decide) (by decide) (by decide)

/-- C7: Selection rule.  The committed candidate of a piece is the first
element of `possible_positions` attaining the lexicographic minimum of the
key `(maxy, x)` — i.e. `(topY, column)`: it is at least as good as every
recorded candidate (lower `topY` always wins, equal `topY` favours the
smaller column), and every candidate enumerated before it (earlier
orientation, then earlier column) is strictly worse, so remaining ties go to
the first-enumerated candidate. -/
theorem C7_selection (st : PackState) (width stepx stepy : Frac) (nbo : ℕ)
    (geom : Geom) (best : Candidate) (st' : PackState)
    (h : placePiece st width stepx stepy nbo geom = some (best, st')) :
    ∃ pre post, candidatesFor st width stepx stepy nbo geom = pre ++ best :: post ∧
      (∀ d ∈ candidatesFor st width stepx stepy nbo geom,
        keyLe (candKey best) (candKey d)) ∧
      (∀ d ∈ pre, keyLt (candKey best) (candKey d)) := by
  obtain ⟨hmin, -⟩ := placePiece_some h
  obtain ⟨pre, post, hsplit, hminp, hpre⟩ := pyMin_spec hmin
  exact ⟨pre, post, hsplit, fun d hd => hminp d hd, hpre⟩

/-- C7 witness: on the single-square scenario the committed candidate
(column 1) is at least as good as the recorded candidate at column 2, whose
`topY` is equal. -/
theorem C7_selection_witness :
    keyLe (candKey ⟨1, Frac.ofInt 0, Frac.ofInt 2,
        [⟨Frac.ofInt 0, Frac.ofInt 0, Frac.ofInt 2, Frac.ofInt 2⟩]⟩)
      (candKey ⟨2, Frac.ofInt 0, Frac.ofInt 2,
        [⟨Frac.ofInt 1, Frac.ofInt 0, Frac.ofInt 3, Frac.ofInt 2⟩]⟩) := by
  obtain ⟨pre, post, hsplit, hmin, hpre⟩ :=
    C7_selection (initState (Frac.ofInt 10) (Frac.ofInt 1)) (Frac.ofInt 10)
      (Frac.ofInt 1) (Frac.ofInt 1) 1 sqPiece
      ⟨1, Frac.ofInt 0, Frac.ofInt 2,
        [⟨Frac.ofInt 0, Frac.ofInt 0, Frac.ofInt 2, Frac.ofInt 2⟩]⟩
      (commitPiece (initState (Frac.ofInt 10) (Frac.ofInt 1)) (Frac.ofInt 1)
        ⟨1, Frac.ofInt 0, Frac.ofInt 2,
          [⟨Frac.ofInt 0, Frac.ofInt 0, Frac.ofInt 2, Frac.ofInt 2⟩]⟩)
      (by decide)
  exact hmin _ (by decide)

/-- C8: Monotonic water levels.  Every `starting_yoffs` entry starts at `0`,
and (for a positive vertical step) one placement step never lowers any stored
water level: line 125 writes the chosen `yoff`, which is at least the level
that was read for that column, and lines 133-134 only take maxima. -/
theorem C8_monotonic (width stepx stepy : Frac) (nbo : ℕ)
    (hs : (0 : Frac) < stepy) :
    (∀ k : ℤ, pyGet (initState width stepx).starting_yoffs k = 0) ∧
    ∀ (st : PackState) (geom : Geom) (best : Candidate) (st' : PackState),
      placePiece st width stepx stepy nbo geom = some (best, st') →
      ∀ k : ℤ, pyGet st.starting_yoffs k ≤ pyGet st'.starting_yoffs k := by
  constructor
  · intro k
    exact pyGet_replicate_zero _ k
  · intro st geom best st' h k
    obtain ⟨hmin, hst'⟩ := placePiece_some h
    have hbest := candidate_yoff_ge hs (pyMin_mem hmin)
    rw [hst']
    exact commit_yoffs_mono st stepx best hbest k

/-- C8 witness: initial level `0` and a non-lowered level across the first
concrete placement of the single-square scenario. -/
theorem C8_monotonic_witness :
    pyGet (initState (Frac.ofInt 10) (Frac.ofInt 1)).starting_yoffs 0 = 0 ∧
    pyGet (initState (Frac.ofInt 10) (Frac.ofInt 1)).starting_yoffs 1 ≤
      pyGet (commitPiece (initState (Frac.ofInt 10) (Frac.ofInt 1)) (Frac.ofInt 1)
        ⟨1, Frac.ofInt 0, Frac.ofInt 2,
          [⟨Frac.ofInt 0, Frac.ofInt 0, Frac.ofInt 2, Frac.ofInt 2⟩]⟩).starting_yoffs 1 :=
  ⟨(C8_monotonic (Frac.ofInt 10) (Frac.ofInt 1) (Frac.ofInt 1) 1 (by decide)).1 0,
   (C8_monotonic (Frac.ofInt 10) (Frac.ofInt 1) (Frac.ofInt 1) 1 (by decide)).2
     (initState (Frac.ofInt 10) (Frac.ofInt 1)) sqPiece
     ⟨1, Frac.ofInt 0, Frac.ofInt 2,
       [⟨Frac.ofInt 0, Frac.ofInt 0, Frac.ofInt 2, Frac.ofInt 2⟩]⟩
     (commitPiece (initState (Frac.ofInt 10) (Frac.ofInt 1)) (Frac.ofInt 1)
       ⟨1, Frac.ofInt 0, Frac.ofInt 2,
         [⟨Frac.ofInt 0, Frac.ofInt 0, Frac.ofInt 2, Frac.ofInt 2⟩]⟩)
     (by decide) 1⟩

/-- C9: Determinism.  `tetris_pack` is a pure function of the ordered input
pieces and the configuration: two runs on equal inputs produce equal commit
traces (column, vertical offset and final geometry for every piece, in
order) and equal result unions.  The source's only randomness
(`random.shuffle`) happens outside `tetris_pack`. -/
theorem C9_determinism (g1 g2 : List Geom) (w1 w2 sx1 sx2 sy1 sy2 : Frac)
    (n1 n2 : ℕ) (hg : g1 = g2) (hw : w1 = w2) (hx : sx1 = sx2)
    (hy : sy1 = sy2) (hn : n1 = n2) :
    tetris_packTrace g1 w1 sx1 sy1 n1 = tetris_packTrace g2 w2 sx2 sy2 n2 ∧
    tetris_pack g1 w1 sx1 sy1 n1 = tetris_pack g2 w2 sx2 sy2 n2 := by
  subst hg hw hx hy hn
  exact ⟨rfl, rfl⟩

/-- C9 witness: determinism applied to two identical concrete runs. -/
theorem C9_determinism_witness :
    tetris_packTrace [sqPiece] (Frac.ofInt 10) (Frac.ofInt 1) (Frac.ofInt 1) 1 =
      tetris_packTrace [sqPiece] (Frac.ofInt 10) (Frac.ofInt 1) (Frac.ofInt 1) 1 ∧
    tetris_pack [sqPiece] (Frac.ofInt 10) (Frac.ofInt 1) (Frac.ofInt 1) 1 =
      tetris_pack [sqPiece] (Frac.ofInt 10) (Frac.ofInt 1) (Frac.ofInt 1) 1 :=
  C9_determinism [sqPiece] [sqPiece] (Frac.ofInt 10) (Frac.ofInt 10)
    (Frac.ofInt 1) (Frac.ofInt 1) (Frac.ofInt 1) (Frac.ofInt 1) 1 1
    rfl rfl rfl rfl rfl

/-- C10: Implicit probe-start edge case.  The first intersection test of
every `(orientation, column)` candidate is made on `geom_xshifted` itself,
whose bounding-box bottom edge is at `y = 0` — not at the column's water
level.  When that first test finds no collision while the water level `w` of
the column is positive, the recorded candidate carries `yoff = w` (and `maxy`
computed from `w`) while its stored geometry still has its bottom edge at
`y = 0`: the recorded resting height and the stored geometry disagree. -/
theorem C10_probe_bottom (st : PackState) (width stepx stepy : Frac) (nbo : ℕ)
    (geom : Geom) (i : ℕ) (x : ℤ) (c : Candidate) (hi : i < nbo)
    (hx : x ∈ colRange width stepx (gBounds (rotated nbo i geom)))
    (hne : rotated nbo i geom ≠ [])
    (hc : c = mkCandidate st.simplified st.starting_yoffs stepy
        (gBounds (rotated nbo i geom))
        (xshift stepx (gBounds (rotated nbo i geom)) x (rotated nbo i geom)) x)
    (hfree : gInters st.simplified
        (xshift stepx (gBounds (rotated nbo i geom)) x (rotated nbo i geom)) = false)
    (hw : (0 : Frac) < pyGet st.starting_yoffs x) :
    c ∈ candidatesFor st width stepx stepy nbo geom ∧
    c.geom = xshift stepx (gBounds (rotated nbo i geom)) x (rotated nbo i geom) ∧
    c.yoff.toQ = (pyGet st.starting_yoffs x).toQ ∧
    (gBounds c.geom).miny.toQ = 0 ∧
    c.yoff.toQ ≠ (gBounds c.geom).miny.toQ := by
  subst hc
  have hhit : probeHit st.simplified
      (xshift stepx (gBounds (rotated nbo i geom)) x (rotated nbo i geom))
      (pyGet st.starting_yoffs x) stepy 0 = false := hfree
  have hzero := probe_eq_zero hhit
  have hgeom : (mkCandidate st.simplified st.starting_yoffs stepy
      (gBounds (rotated nbo i geom))
      (xshift stepx (gBounds (rotated nbo i geom)) x (rotated nbo i geom)) x).geom =
      xshift stepx (gBounds (rotated nbo i geom)) x (rotated nbo i geom) := by
    show probeGeom _ _ stepy (probe _ _ _ stepy) = _
    rw [hzero, probeGeom_zero]
  have hyoff : (mkCandidate st.simplified st.starting_yoffs stepy
      (gBounds (rotated nbo i geom))
      (xshift stepx (gBounds (rotated nbo i geom)) x (rotated nbo i geom)) x).yoff.toQ =
      (pyGet st.starting_yoffs x).toQ := by
    show (pyGet st.starting_yoffs x + Frac.ofInt (probe _ _ _ stepy) * stepy).toQ = _
    rw [hzero]
    rw [Frac.toQ_add, Frac.toQ_mul, Frac.toQ_ofInt]
    norm_num
  have hbmin : (gBounds (xshift stepx (gBounds (rotated nbo i geom)) x
      (rotated nbo i geom))).miny.toQ = 0 := by
    obtain ⟨r, rs, hrr⟩ : ∃ r rs, rotated nbo i geom = r :: rs := by
      cases hrot : rotated nbo i geom with
      | nil => exact absurd hrot hne
      | cons r rs => exact ⟨r, rs, rfl⟩
    rw [xshift, hrr, gBounds_gTranslate]
    show ((gBounds (r :: rs)).miny + -(gBounds (r :: rs)).miny).toQ = 0
    rw [Frac.toQ_add, Frac.toQ_neg]
    ring
  refine ⟨mem_candidatesFor_intro hi hx, hgeom, hyoff, ?_, ?_⟩
  · rw [hgeom]
    exact hbmin
  · rw [hyoff, hgeom, hbmin]
    exact (Frac.zero_toQ_lt hw).ne'

/-- C10 witness: a column with water level `5` whose first probe test is
collision-free: the recorded candidate keeps its geometry at the bottom while
recording `yoff = 5`. -/
theorem C10_probe_bottom_witness :
    (⟨1, Frac.ofInt 5, Frac.ofInt 7,
        [⟨Frac.ofInt 0, Frac.ofInt 0, Frac.ofInt 2, Frac.ofInt 2⟩]⟩ :
      Candidate).yoff.toQ ≠
      (gBounds (⟨1, Frac.ofInt 5, Frac.ofInt 7,
        [⟨Frac.ofInt 0, Frac.ofInt 0, Frac.ofInt 2, Frac.ofInt 2⟩]⟩ :
          Candidate).geom).miny.toQ :=
  (C10_probe_bottom ⟨[], [], [Frac.ofInt 5, Frac.ofInt 5], 0, Frac.ofInt 0⟩
    (Frac.ofInt 10) (Frac.ofInt 1) (Frac.ofInt 1) 1 sqPiece 0 1
    ⟨1, Frac.ofInt 5, Frac.ofInt 7,
      [⟨Frac.ofInt 0, Frac.ofInt 0, Frac.ofInt 2, Frac.ofInt 2⟩]⟩
    (by decide) (by decide) (by decide) (by decide) (by decide)
    (by decide)).2.2.2.2
